import Mathlib

/-!
Verification of the photo-renaming script `rename.py`.

The script scans the current directory, keeps the entries matched by

  PATTERN = re.compile(
    r'(\d{4})-(\d{2})-(\d{2})-(\d{2})-(\d{2})-(\d{2})_photo_[\d\.]+_MB(\.jpg)$',
    re.IGNORECASE)

groups them by the base key `YYYYMMDD_HHMMSS_photo`, assigns `_1.._N`
suffixes inside each group (sorted lexicographically), and then either
previews or applies the rename plan, skipping a pair whenever the target
name already exists.

The embedding below works on directory listings as `List String`.  The
regex is embedded as a deterministic parser over `List Char`: every
sub-pattern of `PATTERN` is either a fixed-width construct or a character
class followed by a character outside the class, so the backtracking regex
engine and the maximal-munch parser agree.  `re.match` anchors at the
start of the string, and `$` accepts the end of the string or a position
just before one trailing newline, which the parser models exactly.
Digits (`\d`) and case folding (`re.IGNORECASE`, `str.lower`) are
modelled over ASCII, the fragment exercised by this pattern.

Filesystem effects (`os.path.exists`, `os.rename`) are modelled by
explicit state passing on the listing; a possible `OSError` of
`os.rename` is modelled by an oracle `Nat → Bool` giving the success of
the n-th attempted rename call, and `os.rename` also fails (exception
caught by the script) when the source entry does not exist.
-/

namespace Rename

/-- ASCII lowercasing; models Python case folding on the ASCII fragment
used by the pattern literals and the `execute` trigger. -/
def lowAscii (c : Char) : Char :=
  if 65 ≤ c.toNat ∧ c.toNat ≤ 90 then Char.ofNat (c.toNat + 32) else c

/-- The regex class `\d`, modelled as an ASCII digit. -/
def isDig (c : Char) : Bool := decide (48 ≤ c.toNat ∧ c.toNat ≤ 57)

/-- The regex class `[\d\.]`. -/
def isSizeChar (c : Char) : Bool := isDig c || c = '.'

/-- A fixed-width digit group such as `(\d{4})`: consume exactly `n`
digits and return them together with the rest of the input. -/
def takeDigits : Nat → List Char → Option (List Char × List Char)
  | 0, s => some ([], s)
  | _ + 1, [] => none
  | n + 1, c :: s =>
      if isDig c then (takeDigits n s).map (fun p => (c :: p.1, p.2)) else none

/-- A literal character of the pattern (the `-` separators). -/
def expectChar (c : Char) : List Char → Option (List Char)
  | [] => none
  | x :: s => if x = c then some s else none

/-- A literal matched case-insensitively (the whole `PATTERN` carries
`re.IGNORECASE`); returns the matched text (case preserved) and the rest. -/
def matchCI : List Char → List Char → Option (List Char × List Char)
  | [], s => some ([], s)
  | _ :: _, [] => none
  | l :: ls, c :: s =>
      if lowAscii c = lowAscii l then
        (matchCI ls s).map (fun p => (c :: p.1, p.2))
      else none

/-- Greedy `[\d\.]+` (the size field, without the `+`-nonemptiness check,
performed by the caller): the maximal run of digits and dots. -/
def takeSizeRun : List Char → List Char × List Char
  | [] => ([], [])
  | c :: s =>
      if isSizeChar c then
        ((takeSizeRun s).1.cons c, (takeSizeRun s).2)
      else ([], c :: s)

/-- The seven captured groups of `PATTERN`:
year, month, day, hour, minute, second and the extension `(\.jpg)`. -/
structure Caps where
  y : List Char
  mo : List Char
  d : List Char
  h : List Char
  mi : List Char
  se : List Char
  ext : List Char
deriving Repr, DecidableEq

/-- Model of `PATTERN.match(f)`: `(\d{4})-(\d{2})-(\d{2})-(\d{2})-(\d{2})-(\d{2})_photo_[\d\.]+_MB(\.jpg)$`
with `re.IGNORECASE`, anchored at the start by `re.match` and at the end
by `$` (end of string, or just before one trailing newline). -/
def PATTERN_match (s : List Char) : Option Caps := do
  let (y, s1) ← takeDigits 4 s
  let s2 ← expectChar '-' s1
  let (mo, s3) ← takeDigits 2 s2
  let s4 ← expectChar '-' s3
  let (d, s5) ← takeDigits 2 s4
  let s6 ← expectChar '-' s5
  let (h, s7) ← takeDigits 2 s6
  let s8 ← expectChar '-' s7
  let (mi, s9) ← takeDigits 2 s8
  let s10 ← expectChar '-' s9
  let (se, s11) ← takeDigits 2 s10
  let (_, s12) ← matchCI "_photo_".toList s11
  let szr := takeSizeRun s12
  if szr.1 = [] then none
  else do
    let (_, s13) ← matchCI "_MB".toList szr.2
    let (ext, s14) ← matchCI ".jpg".toList s13
    if s14 = [] ∨ s14 = ['\n'] then some ⟨y, mo, d, h, mi, se, ext⟩ else none

/-- The characters of `new_base_name`: `f"{year}{month}{day}_{hour}{minute}{second}_photo"`. -/
def baseChars (c : Caps) : List Char :=
  c.y ++ c.mo ++ c.d ++ ('_' :: (c.h ++ c.mi ++ c.se ++ "_photo".toList))

/-- `new_base_name = f"{year}{month}{day}_{hour}{minute}{second}_photo"`. -/
def new_base_name (c : Caps) : String := String.mk (baseChars c)

/-- `PATTERN.match(f).group(7)`: the captured extension of a matching file. -/
def extOf (f : String) : Option String :=
  (PATTERN_match f.toList).map (fun c => String.mk c.ext)

/-- The base key a matching file is grouped under. -/
def keyOf (f : String) : Option String :=
  (PATTERN_match f.toList).map new_base_name

/-- `matching_files = [f for f in files if PATTERN.match(f)]`. -/
def matching_files (fs : List String) : List String :=
  fs.filter (fun f => (PATTERN_match f.toList).isSome)

/-- `timestamp_groups[new_base_name].append(original_name)`: one step of
the `defaultdict(list)` accumulation (insertion-ordered, as Python dicts). -/
def addToGroups (gs : List (String × List String)) (k : String) (v : String) :
    List (String × List String) :=
  match gs with
  | [] => [(k, [v])]
  | (k0, vs) :: rest =>
      if k0 = k then (k0, vs ++ [v]) :: rest else (k0, vs) :: addToGroups rest k v

/-- The grouping loop over `matching_files` (a file whose second match
fails would be skipped with a warning; unreachable after the filter). -/
def groupsAux : List (String × List String) → List String → List (String × List String)
  | gs, [] => gs
  | gs, f :: rest =>
      match keyOf f with
      | some k => groupsAux (addToGroups gs k f) rest
      | none => groupsAux gs rest

/-- `timestamp_groups` built from the matched files. -/
def timestamp_groups (ms : List String) : List (String × List String) :=
  groupsAux [] ms

/-- Dictionary lookup on the association list of groups (first entry with
the given key; empty list when absent). -/
def findGroup (k : String) : List (String × List String) → List String
  | [] => []
  | (k0, vs) :: rest => if k0 = k then vs else findGroup k rest

/-- Lexicographic comparison of character lists by code point: the
ordering Python's `originals.sort()` uses on strings. -/
def listLe : List Char → List Char → Bool
  | [], _ => true
  | _ :: _, [] => false
  | a :: as, b :: bs =>
      if a.toNat < b.toNat then true
      else if b.toNat < a.toNat then false
      else listLe as bs

/-- Python string comparison `a <= b` (code-point lexicographic). -/
def pyLe (a b : String) : Bool := listLe a.data b.data

/-- The duplicate-numbering loop `for i, original_name in enumerate(originals, 1)`:
a member whose re-match fails is skipped ("Critical error") while `i`
still advances; unreachable for scanned files. -/
def numberPairs (k : String) : Nat → List String → List (String × String)
  | _, [] => []
  | i, f :: rest =>
      match extOf f with
      | some e => (f, k ++ "_" ++ toString i ++ e) :: numberPairs k (i + 1) rest
      | none => numberPairs k (i + 1) rest

/-- The plan pairs contributed by one group: sort, then either the
suffix-free name (singleton group; here a failing re-match would raise in
the source, modelled as no pair and unreachable for scanned files) or the
`_1.._N` numbering. -/
def groupPairs (e : String × List String) : List (String × String) :=
  match List.insertionSort (fun a b => pyLe a b = true) e.2 with
  | [o] =>
      match extOf o with
      | some ex => [(o, e.1 ++ ex)]
      | none => []
  | g => numberPairs e.1 1 g

/-- The plan accumulated over the groups in insertion order. -/
def planOf : List (String × List String) → List (String × String)
  | [] => []
  | e :: rest => groupPairs e ++ planOf rest

/-- `rename_plan` as an association list in dict insertion order. -/
def rename_plan (ms : List String) : List (String × String) :=
  planOf (timestamp_groups ms)

/-- One iteration of the execution loop on a plan pair: the no-op check,
the collision check `os.path.exists(new) and new != original`, the
dry-run guard, and the `os.rename` call (which fails when the oracle says
so or when the source entry is missing, the `OSError` being caught).
Returns the updated listing and the number of `os.rename` calls (0 or 1). -/
def execPair (dry_run ok : Bool) (fs : List String) (p : String × String) :
    List String × Nat :=
  if p.1 = p.2 then (fs, 0)
  else if p.2 ∈ fs ∧ p.2 ≠ p.1 then (fs, 0)
  else if dry_run then (fs, 0)
  else (if ok ∧ p.1 ∈ fs then (fs.erase p.1) ++ [p.2] else fs, 1)

/-- The execution loop over the whole plan; the oracle gives the success
of each attempted `os.rename` in order. -/
def execPlan (dry_run : Bool) :
    (Nat → Bool) → List String → List (String × String) → List String × Nat
  | _, fs, [] => (fs, 0)
  | oracle, fs, p :: rest =>
      let r := execPair dry_run (oracle 0) fs p
      let r2 := execPlan dry_run (fun n => oracle (n + 1)) r.1 rest
      (r2.1, r.2 + r2.2)

/-- The whole run of `rename_files_with_deduplication`: scan, group, plan,
execute (with the early return when nothing matches).  Returns the final
listing and the number of `os.rename` calls performed. -/
def rename_files_with_deduplication (dry_run : Bool) (oracle : Nat → Bool)
    (fs : List String) : List String × Nat :=
  let ms := matching_files fs
  if ms = [] then (fs, 0)
  else execPlan dry_run oracle fs (rename_plan ms)

/-- `sys.argv[1].lower()`, modelled over ASCII. -/
def strLower (s : String) : String := String.mk (s.data.map lowAscii)

/-- `is_dry_run` from `__main__`: stays `True` unless
`len(sys.argv) > 1 and sys.argv[1].lower() == 'execute'`. -/
def is_dry_run_for (argv : List String) : Bool :=
  match argv with
  | _ :: a :: _ => !(strLower a == "execute")
  | _ => true

/-- Position of the first occurrence of `f` (0-based); used to state the
spec's "for i = 1..N in sorted order" clause. -/
def posIn (f : String) : List String → Option Nat
  | [] => none
  | x :: rest => if x = f then some 0 else (posIn f rest).map (· + 1)

/-- Modelled from the spec claim C1 wording: the new name of a matched
file `f` is the base key derived from its date/time captures, with no
suffix when `f`'s group (all matched files sharing that key) is a
singleton, and with suffix `_(idx+1)` when `f` sits at 0-based position
`idx` of the lexicographically sorted group, the extension taken from
`f`'s own captures. -/
def specNewName (ms : List String) (f : String) : Option String :=
  match PATTERN_match f.toList with
  | none => none
  | some c =>
      let g := List.insertionSort (fun a b => pyLe a b = true)
        (ms.filter fun x => keyOf x = some (new_base_name c))
      if g.length = 1 then some (new_base_name c ++ String.mk c.ext)
      else (posIn f g).map
        (fun idx => new_base_name c ++ "_" ++ toString (idx + 1) ++ String.mk c.ext)

/-- An exact-case literal, for the claim-side template of C6. -/
def matchExact : List Char → List Char → Option (List Char)
  | [], s => some s
  | _ :: _, [] => none
  | l :: ls, c :: s => if c = l then matchExact ls s else none

/-- A maximal run of digits. -/
def takeDigitRun : List Char → List Char × List Char
  | [] => ([], [])
  | c :: s =>
      if isDig c then
        ((takeDigitRun s).1.cons c, (takeDigitRun s).2)
      else ([], c :: s)

/-- Modelled from the spec claim C6 wording: the template
`YYYY-MM-DD-HH-MM-SS_photo_<decimal-with-optional-fraction>_MB.jpg` in
which only the extension is matched case-insensitively (`photo` and `MB`
exact-case), the size field is a decimal with an optional fractional
part, and the name ends right after the extension. -/
def claimTemplate (s : List Char) : Bool :=
  (do
    let (_, s1) ← takeDigits 4 s
    let s2 ← expectChar '-' s1
    let (_, s3) ← takeDigits 2 s2
    let s4 ← expectChar '-' s3
    let (_, s5) ← takeDigits 2 s4
    let s6 ← expectChar '-' s5
    let (_, s7) ← takeDigits 2 s6
    let s8 ← expectChar '-' s7
    let (_, s9) ← takeDigits 2 s8
    let s10 ← expectChar '-' s9
    let (_, s11) ← takeDigits 2 s10
    let s12 ← matchExact "_photo_".toList s11
    let dr := takeDigitRun s12
    if dr.1 = [] then none
    else do
      let s13 ←
        match dr.2 with
        | '.' :: t =>
            if (takeDigitRun t).1 = [] then none else some (takeDigitRun t).2
        | r => some r
      let s14 ← matchExact "_MB".toList s13
      let (_, s15) ← matchCI ".jpg".toList s14
      if s15 = [] then some () else none).isSome

/-- A fixed-width block of digits, for the declarative template. -/
def digitBlock (n : Nat) (l : List Char) : Prop := l.length = n ∧ l.all isDig

/-- Case-insensitive equality of two character lists (ASCII folding). -/
def eqCI (t lit : List Char) : Prop := t.map lowAscii = lit.map lowAscii

/-- The concatenation of the template's blocks:
`YYYY-MM-DD-HH-MM-SS` then the photo literal, the size run, the MB
literal, the extension and the tail after `$`. -/
def templArr (y mo d h mi se p sz mb ext tl : List Char) : List Char :=
  y ++ ('-' :: (mo ++ ('-' :: (d ++ ('-' :: (h ++ ('-' :: (mi ++
    ('-' :: (se ++ (p ++ (sz ++ (mb ++ (ext ++ tl))))))))))))))

/-- The declarative template that characterizes `PATTERN_match` (the
amended C6): all alphabetic literals — `photo`, `MB` and the extension —
are matched case-insensitively, the size field is any nonempty run of
digits and dots, and the name may carry one trailing newline (Python's
`$`). -/
def templateCI (s : List Char) : Prop :=
  ∃ y mo d h mi se p sz mb ext tl,
    s = templArr y mo d h mi se p sz mb ext tl
    ∧ digitBlock 4 y ∧ digitBlock 2 mo ∧ digitBlock 2 d ∧ digitBlock 2 h
    ∧ digitBlock 2 mi ∧ digitBlock 2 se
    ∧ eqCI p "_photo_".toList
    ∧ sz ≠ [] ∧ sz.all isSizeChar
    ∧ eqCI mb "_MB".toList
    ∧ eqCI ext ".jpg".toList
    ∧ (tl = [] ∨ tl = ['\n'])

/-! ### Parsing-layer lemmas -/

theorem isDig_bounds {c : Char} (h : isDig c = true) :
    48 ≤ c.toNat ∧ c.toNat ≤ 57 := by
  simpa [isDig] using h

theorem isDig_ne_dash {c : Char} (h : isDig c = true) : c ≠ '-' := by
  intro he
  have hb := isDig_bounds h
  rw [he] at hb
  simp at hb

theorem lowAscii_of_isDig {c : Char} (h : isDig c = true) : lowAscii c = c := by
  have hb := isDig_bounds h
  unfold lowAscii
  rw [if_neg]
  omega

theorem not_sizeChar_of_lowAscii_underscore {c : Char}
    (h : lowAscii c = '_') : isSizeChar c = false := by
  rcases hs : isSizeChar c with _ | _
  · rfl
  · exfalso
    have hs' : isDig c = true ∨ c = '.' := by simpa [isSizeChar] using hs
    rcases hs' with hd | hdot
    · rw [lowAscii_of_isDig hd] at h
      have hb := isDig_bounds hd
      rw [h] at hb
      simp at hb
    · rw [hdot] at h
      simp [lowAscii] at h

theorem takeDigits_eq_some :
    ∀ {n : Nat} {s d r : List Char}, takeDigits n s = some (d, r) →
      s = d ++ r ∧ d.length = n ∧ d.all isDig = true
  | 0, s, d, r, h => by
      simp only [takeDigits, Option.some.injEq, Prod.mk.injEq] at h
      obtain ⟨h1, h2⟩ := h
      subst h1; subst h2
      simp
  | n + 1, [], d, r, h => by simp [takeDigits] at h
  | n + 1, c :: s, d, r, h => by
      simp only [takeDigits] at h
      by_cases hc : isDig c
      · rw [if_pos hc] at h
        cases ht : takeDigits n s with
        | none => rw [ht] at h; simp at h
        | some p =>
            obtain ⟨d0, r0⟩ := p
            rw [ht] at h
            simp only [Option.map_some', Option.some.injEq, Prod.mk.injEq] at h
            obtain ⟨hd, hr⟩ := h
            obtain ⟨hs, hl, ha⟩ := takeDigits_eq_some ht
            subst hd; subst hr; subst hs
            simp [hl, hc, ha]
      · rw [if_neg hc] at h
        simp at h

theorem takeDigits_of_digitBlock :
    ∀ {n : Nat} {d : List Char} (r : List Char), digitBlock n d →
      takeDigits n (d ++ r) = some (d, r)
  | _, [], r, hb => by
      obtain ⟨hl, _⟩ := hb
      subst hl
      rfl
  | n, c :: d, r, hb => by
      obtain ⟨hl, ha⟩ := hb
      simp only [List.all_cons, Bool.and_eq_true] at ha
      subst hl
      have ih := @takeDigits_of_digitBlock d.length d r ⟨rfl, ha.2⟩
      simp [takeDigits, ha.1, ih]

theorem expectChar_eq_some {c : Char} {s r : List Char}
    (h : expectChar c s = some r) : s = c :: r := by
  cases s with
  | nil => simp [expectChar] at h
  | cons x s =>
      simp only [expectChar] at h
      by_cases hx : x = c
      · rw [if_pos hx] at h
        simp only [Option.some.injEq] at h
        rw [hx, h]
      · rw [if_neg hx] at h
        simp at h

theorem expectChar_cons (c : Char) (r : List Char) :
    expectChar c (c :: r) = some r := by
  simp [expectChar]

theorem matchCI_eq_some :
    ∀ {lit s t r : List Char}, matchCI lit s = some (t, r) →
      s = t ++ r ∧ eqCI t lit
  | [], s, t, r, h => by
      simp only [matchCI, Option.some.injEq, Prod.mk.injEq] at h
      obtain ⟨h1, h2⟩ := h
      subst h1; subst h2
      simp [eqCI]
  | _ :: _, [], t, r, h => by simp [matchCI] at h
  | l :: ls, c :: s, t, r, h => by
      simp only [matchCI] at h
      by_cases hc : lowAscii c = lowAscii l
      · rw [if_pos hc] at h
        cases ht : matchCI ls s with
        | none => rw [ht] at h; simp at h
        | some p =>
            obtain ⟨t0, r0⟩ := p
            rw [ht] at h
            simp only [Option.map_some', Option.some.injEq, Prod.mk.injEq] at h
            obtain ⟨hd, hr⟩ := h
            obtain ⟨hs, he⟩ := matchCI_eq_some ht
            subst hd; subst hr; subst hs
            refine ⟨by simp, ?_⟩
            simp only [eqCI, List.map_cons] at he ⊢
            rw [hc, he]
      · rw [if_neg hc] at h
        simp at h

theorem matchCI_of_eqCI :
    ∀ {lit t : List Char} (r : List Char), eqCI t lit →
      matchCI lit (t ++ r) = some (t, r)
  | [], t, r, he => by
      have : t = [] := by simpa [eqCI] using he
      subst this
      rfl
  | l :: ls, t, r, he => by
      cases t with
      | nil => simp [eqCI] at he
      | cons c t0 =>
          simp only [eqCI, List.map_cons, List.cons.injEq] at he
          have ih := @matchCI_of_eqCI ls t0 r he.2
          simp [matchCI, he.1, ih]

theorem takeSizeRun_eq :
    ∀ {s t r : List Char}, takeSizeRun s = (t, r) →
      s = t ++ r ∧ t.all isSizeChar = true ∧
        ∀ c cs, r = c :: cs → isSizeChar c = false
  | [], t, r, h => by
      simp only [takeSizeRun, Prod.mk.injEq] at h
      obtain ⟨h1, h2⟩ := h
      subst h1; subst h2
      exact ⟨rfl, rfl, by intro c cs hc; simp at hc⟩
  | c :: s, t, r, h => by
      simp only [takeSizeRun] at h
      by_cases hc : isSizeChar c
      · rw [if_pos hc] at h
        cases ht : takeSizeRun s with
        | mk t0 r0 =>
            rw [ht] at h
            simp only [List.cons, Prod.mk.injEq] at h
            obtain ⟨hd, hr⟩ := h
            obtain ⟨hs, ha, hb⟩ := takeSizeRun_eq ht
            subst hd; subst hr; subst hs
            exact ⟨rfl, by simp [hc, ha], hb⟩
      · rw [if_neg hc] at h
        simp only [Prod.mk.injEq] at h
        obtain ⟨h1, h2⟩ := h
        subst h1; subst h2
        refine ⟨rfl, rfl, ?_⟩
        intro c0 cs hc0
        obtain ⟨he, _⟩ := List.cons.injEq .. |>.mp hc0.symm
        rw [he]
        exact Bool.of_not_eq_true hc

theorem takeSizeRun_append :
    ∀ {t : List Char} (r : List Char), t.all isSizeChar = true →
      (∀ c cs, r = c :: cs → isSizeChar c = false) →
      takeSizeRun (t ++ r) = (t, r)
  | [], r, _, hr => by
      cases r with
      | nil => rfl
      | cons c cs => simp [takeSizeRun, hr c cs rfl]
  | c :: t, r, ht, hr => by
      simp only [List.all_cons, Bool.and_eq_true] at ht
      have ih := @takeSizeRun_append t r ht.2 hr
      simp [takeSizeRun, ht.1, ih]

theorem optBind_some {α β : Type} (a : α) (f : α → Option β) :
    (some a >>= f) = f a := rfl

theorem optBind_none {α β : Type} (f : α → Option β) :
    ((none : Option α) >>= f) = none := rfl

/-- Soundness of the pattern parser: a successful match decomposes the
input along the template, with the captured groups well-formed. -/
theorem PATTERN_match_eq_some {s : List Char} {c : Caps}
    (h : PATTERN_match s = some c) :
    ∃ p sz mb tl,
      s = templArr c.y c.mo c.d c.h c.mi c.se p sz mb c.ext tl
      ∧ digitBlock 4 c.y ∧ digitBlock 2 c.mo ∧ digitBlock 2 c.d
      ∧ digitBlock 2 c.h ∧ digitBlock 2 c.mi ∧ digitBlock 2 c.se
      ∧ eqCI p "_photo_".toList
      ∧ sz ≠ [] ∧ sz.all isSizeChar = true
      ∧ eqCI mb "_MB".toList
      ∧ eqCI c.ext ".jpg".toList
      ∧ (tl = [] ∨ tl = ['\n']) := by
  simp only [PATTERN_match] at h
  cases ht1 : takeDigits 4 s with
  | none => rw [ht1, optBind_none] at h; exact Option.noConfusion h
  | some q1 =>
  obtain ⟨y, s1⟩ := q1
  rw [ht1] at h
  dsimp only [optBind_some] at h
  cases ht2 : expectChar '-' s1 with
  | none => rw [ht2, optBind_none] at h; exact Option.noConfusion h
  | some s2 =>
  rw [ht2] at h
  dsimp only [optBind_some] at h
  cases ht3 : takeDigits 2 s2 with
  | none => rw [ht3, optBind_none] at h; exact Option.noConfusion h
  | some q2 =>
  obtain ⟨mo, s3⟩ := q2
  rw [ht3] at h
  dsimp only [optBind_some] at h
  cases ht4 : expectChar '-' s3 with
  | none => rw [ht4, optBind_none] at h; exact Option.noConfusion h
  | some s4 =>
  rw [ht4] at h
  dsimp only [optBind_some] at h
  cases ht5 : takeDigits 2 s4 with
  | none => rw [ht5, optBind_none] at h; exact Option.noConfusion h
  | some q3 =>
  obtain ⟨dd, s5⟩ := q3
  rw [ht5] at h
  dsimp only [optBind_some] at h
  cases ht6 : expectChar '-' s5 with
  | none => rw [ht6, optBind_none] at h; exact Option.noConfusion h
  | some s6 =>
  rw [ht6] at h
  dsimp only [optBind_some] at h
  cases ht7 : takeDigits 2 s6 with
  | none => rw [ht7, optBind_none] at h; exact Option.noConfusion h
  | some q4 =>
  obtain ⟨hr, s7⟩ := q4
  rw [ht7] at h
  dsimp only [optBind_some] at h
  cases ht8 : expectChar '-' s7 with
  | none => rw [ht8, optBind_none] at h; exact Option.noConfusion h
  | some s8 =>
  rw [ht8] at h
  dsimp only [optBind_some] at h
  cases ht9 : takeDigits 2 s8 with
  | none => rw [ht9, optBind_none] at h; exact Option.noConfusion h
  | some q5 =>
  obtain ⟨mi, s9⟩ := q5
  rw [ht9] at h
  dsimp only [optBind_some] at h
  cases ht10 : expectChar '-' s9 with
  | none => rw [ht10, optBind_none] at h; exact Option.noConfusion h
  | some s10 =>
  rw [ht10] at h
  dsimp only [optBind_some] at h
  cases ht11 : takeDigits 2 s10 with
  | none => rw [ht11, optBind_none] at h; exact Option.noConfusion h
  | some q6 =>
  obtain ⟨se, s11⟩ := q6
  rw [ht11] at h
  dsimp only [optBind_some] at h
  cases ht12 : matchCI "_photo_".toList s11 with
  | none => rw [ht12, optBind_none] at h; exact Option.noConfusion h
  | some q7 =>
  obtain ⟨p, s12⟩ := q7
  rw [ht12] at h
  dsimp only [optBind_some] at h
  cases ht13 : takeSizeRun s12 with
  | mk sz s13 =>
  rw [ht13] at h
  dsimp only at h
  by_cases hszn : sz = []
  · rw [if_pos hszn] at h; exact Option.noConfusion h
  rw [if_neg hszn] at h
  cases ht14 : matchCI "_MB".toList s13 with
  | none => rw [ht14, optBind_none] at h; exact Option.noConfusion h
  | some q8 =>
  obtain ⟨mb, s14⟩ := q8
  rw [ht14] at h
  dsimp only [optBind_some] at h
  cases ht15 : matchCI ".jpg".toList s14 with
  | none => rw [ht15, optBind_none] at h; exact Option.noConfusion h
  | some q9 =>
  obtain ⟨ext, s15⟩ := q9
  rw [ht15] at h
  dsimp only [optBind_some] at h
  by_cases htl : s15 = [] ∨ s15 = ['\n']
  swap
  · rw [if_neg htl] at h; exact Option.noConfusion h
  rw [if_pos htl] at h
  simp only [Option.some.injEq] at h
  subst h
  obtain ⟨e1, l1, a1⟩ := takeDigits_eq_some ht1
  have e2 := expectChar_eq_some ht2
  obtain ⟨e3, l3, a3⟩ := takeDigits_eq_some ht3
  have e4 := expectChar_eq_some ht4
  obtain ⟨e5, l5, a5⟩ := takeDigits_eq_some ht5
  have e6 := expectChar_eq_some ht6
  obtain ⟨e7, l7, a7⟩ := takeDigits_eq_some ht7
  have e8 := expectChar_eq_some ht8
  obtain ⟨e9, l9, a9⟩ := takeDigits_eq_some ht9
  have e10 := expectChar_eq_some ht10
  obtain ⟨e11, l11, a11⟩ := takeDigits_eq_some ht11
  obtain ⟨e12, q12⟩ := matchCI_eq_some ht12
  obtain ⟨e13, a13, _⟩ := takeSizeRun_eq ht13
  obtain ⟨e14, q14⟩ := matchCI_eq_some ht14
  obtain ⟨e15, q15⟩ := matchCI_eq_some ht15
  refine ⟨p, sz, mb, s15, ?_, ⟨l1, a1⟩, ⟨l3, a3⟩, ⟨l5, a5⟩, ⟨l7, a7⟩,
    ⟨l9, a9⟩, ⟨l11, a11⟩, q12, hszn, a13, q14, q15, htl⟩
  subst e1 e2 e3 e4 e5 e6 e7 e8 e9 e10 e11 e12 e13 e14 e15
  simp [templArr]

/-- If the case-folded characters of `mb` spell `_MB`, then `mb` starts
with a literal underscore, which is not a size character. -/
theorem head_of_eqCI_MB {mb : List Char} (hmb : eqCI mb "_MB".toList) :
    ∃ m1 mrest, mb = m1 :: mrest ∧ isSizeChar m1 = false := by
  have hmb' : List.map lowAscii mb = List.map lowAscii "_MB".toList := hmb
  rw [show List.map lowAscii "_MB".toList = ['_', 'm', 'b'] from by decide] at hmb'
  cases mb with
  | nil => simp at hmb'
  | cons m1 mrest =>
      simp only [List.map_cons, List.cons.injEq] at hmb'
      exact ⟨m1, mrest, rfl, not_sizeChar_of_lowAscii_underscore hmb'.1⟩

/-- Completeness of the pattern parser: every template decomposition is
accepted, with exactly the decomposition's blocks as captures. -/
theorem PATTERN_match_of_template
    {y mo d hh mi se p sz mb ext tl : List Char}
    (hy : digitBlock 4 y) (hmo : digitBlock 2 mo) (hd : digitBlock 2 d)
    (hhh : digitBlock 2 hh) (hmi : digitBlock 2 mi) (hse : digitBlock 2 se)
    (hp : eqCI p "_photo_".toList)
    (hsz : sz ≠ []) (hsza : sz.all isSizeChar = true)
    (hmb : eqCI mb "_MB".toList)
    (hext : eqCI ext ".jpg".toList)
    (htl : tl = [] ∨ tl = ['\n']) :
    PATTERN_match (templArr y mo d hh mi se p sz mb ext tl)
      = some ⟨y, mo, d, hh, mi, se, ext⟩ := by
  obtain ⟨m1, mrest, hmbe, hm1⟩ := head_of_eqCI_MB hmb
  have hbound : ∀ c0 cs, mb ++ (ext ++ tl) = c0 :: cs → isSizeChar c0 = false := by
    intro c0 cs hcc
    rw [hmbe] at hcc
    simp only [List.cons_append, List.cons.injEq] at hcc
    exact hcc.1 ▸ hm1
  simp only [templArr, PATTERN_match]
  rw [takeDigits_of_digitBlock _ hy]
  dsimp only [optBind_some]
  rw [expectChar_cons]
  dsimp only [optBind_some]
  rw [takeDigits_of_digitBlock _ hmo]
  dsimp only [optBind_some]
  rw [expectChar_cons]
  dsimp only [optBind_some]
  rw [takeDigits_of_digitBlock _ hd]
  dsimp only [optBind_some]
  rw [expectChar_cons]
  dsimp only [optBind_some]
  rw [takeDigits_of_digitBlock _ hhh]
  dsimp only [optBind_some]
  rw [expectChar_cons]
  dsimp only [optBind_some]
  rw [takeDigits_of_digitBlock _ hmi]
  dsimp only [optBind_some]
  rw [expectChar_cons]
  dsimp only [optBind_some]
  rw [takeDigits_of_digitBlock _ hse]
  dsimp only [optBind_some]
  rw [matchCI_of_eqCI _ hp]
  dsimp only [optBind_some]
  rw [takeSizeRun_append _ hsza hbound]
  dsimp only
  rw [if_neg hsz]
  rw [matchCI_of_eqCI _ hmb]
  dsimp only [optBind_some]
  rw [matchCI_of_eqCI _ hext]
  dsimp only [optBind_some]
  rw [if_pos htl]

/-! ### Grouping-layer lemmas -/

theorem findGroup_addToGroups (k k' v : String) :
    ∀ gs, findGroup k (addToGroups gs k' v) =
      if k' = k then findGroup k gs ++ [v] else findGroup k gs
  | [] => by
      by_cases h : k' = k <;> simp [addToGroups, findGroup, h]
  | (k0, vs) :: rest => by
      by_cases h0 : k0 = k' <;> by_cases h1 : k0 = k
      · have h2 : k' = k := h0.symm.trans h1
        simp [addToGroups, findGroup, h0, h1, h2]
      · have h2 : ¬ k' = k := fun he => h1 (h0.trans he)
        simp [addToGroups, findGroup, h0, h1, h2]
      · have h2 : ¬ k' = k := fun he => h0 (h1.trans he.symm)
        have h3 : ¬ k = k' := fun he => h2 he.symm
        simp [addToGroups, findGroup, h0, h1, h2, h3]
      · simp [addToGroups, findGroup, h0, h1, findGroup_addToGroups k k' v rest]

theorem findGroup_groupsAux (k : String) :
    ∀ (ms : List String) (gs : List (String × List String)),
      findGroup k (groupsAux gs ms) =
        findGroup k gs ++ ms.filter (fun f => keyOf f = some k)
  | [], gs => by simp [groupsAux]
  | f :: rest, gs => by
      cases hk : keyOf f with
      | none =>
          simp [groupsAux, hk, List.filter_cons, findGroup_groupsAux k rest gs]
      | some k' =>
          by_cases hkk : k' = k
          · subst hkk
            simp [groupsAux, hk, List.filter_cons, findGroup_groupsAux k' rest _,
              findGroup_addToGroups, List.append_assoc]
          · simp [groupsAux, hk, List.filter_cons, hkk, findGroup_groupsAux k rest _,
              findGroup_addToGroups]

theorem findGroup_timestamp_groups (k : String) (ms : List String) :
    findGroup k (timestamp_groups ms) = ms.filter (fun f => keyOf f = some k) := by
  simpa [timestamp_groups, findGroup] using findGroup_groupsAux k ms []

theorem keys_addToGroups (k' v : String) :
    ∀ gs : List (String × List String),
      (addToGroups gs k' v).map Prod.fst =
        if k' ∈ gs.map Prod.fst then gs.map Prod.fst else gs.map Prod.fst ++ [k']
  | [] => by simp [addToGroups]
  | (k0, vs) :: rest => by
      by_cases h0 : k0 = k'
      · subst h0
        simp [addToGroups]
      · by_cases h1 : k' ∈ rest.map Prod.fst
        · simp [addToGroups, h0, h1, keys_addToGroups k' v rest, Ne.symm h0]
        · simp [addToGroups, h0, h1, keys_addToGroups k' v rest, Ne.symm h0]

theorem keys_nodup_groupsAux :
    ∀ (ms : List String) (gs : List (String × List String)),
      (gs.map Prod.fst).Nodup → ((groupsAux gs ms).map Prod.fst).Nodup
  | [], gs, h => by simpa [groupsAux] using h
  | f :: rest, gs, h => by
      cases hk : keyOf f with
      | none =>
          simp only [groupsAux, hk]
          exact keys_nodup_groupsAux rest gs h
      | some k' =>
          simp only [groupsAux, hk]
          apply keys_nodup_groupsAux rest
          rw [keys_addToGroups]
          by_cases h1 : k' ∈ gs.map Prod.fst
          · simpa [h1] using h
          · rw [if_neg h1]
            refine List.Nodup.append h (List.nodup_singleton k') ?_
            intro a ha hb
            rw [List.mem_singleton] at hb
            exact h1 (hb ▸ ha)

theorem keys_nodup_timestamp_groups (ms : List String) :
    ((timestamp_groups ms).map Prod.fst).Nodup :=
  keys_nodup_groupsAux ms [] (by simp)

theorem entry_eq_findGroup {k : String} {vs : List String} :
    ∀ {gs : List (String × List String)},
      (gs.map Prod.fst).Nodup → (k, vs) ∈ gs → vs = findGroup k gs := by
  intro gs
  induction gs with
  | nil => intro _ h; cases h
  | cons e rest ih =>
      obtain ⟨k0, vs0⟩ := e
      intro hnd h
      rcases List.mem_cons.mp h with he | hm
      · obtain ⟨h1, h2⟩ := Prod.mk.injEq .. |>.mp he
        subst h1
        subst h2
        simp [findGroup]
      · simp only [List.map_cons, List.nodup_cons] at hnd
        have hk : k ∈ rest.map Prod.fst := List.mem_map_of_mem Prod.fst hm
        have hne : ¬ k0 = k := fun he0 => hnd.1 (he0 ▸ hk)
        rw [findGroup, if_neg hne]
        exact ih hnd.2 hm

/-- Every group of `timestamp_groups ms` consists exactly of the files of
`ms` whose base key is the group's key, in listing order. -/
theorem entry_timestamp_groups {ms : List String} {k : String} {vs : List String}
    (h : (k, vs) ∈ timestamp_groups ms) :
    vs = ms.filter (fun f => keyOf f = some k) :=
  (entry_eq_findGroup (keys_nodup_timestamp_groups ms) h).trans
    (findGroup_timestamp_groups k ms)

theorem findGroup_mem :
    ∀ {gs : List (String × List String)} {k : String},
      findGroup k gs ≠ [] → (k, findGroup k gs) ∈ gs := by
  intro gs
  induction gs with
  | nil => intro k h; exact absurd rfl h
  | cons e rest ih =>
      obtain ⟨k0, vs0⟩ := e
      intro k h
      by_cases he : k0 = k
      · subst he
        rw [findGroup, if_pos rfl] at h ⊢
        exact List.mem_cons_self _ _
      · rw [findGroup, if_neg he] at h ⊢
        exact List.mem_cons_of_mem _ (ih h)

/-- The group of a matched file's own key is present in `timestamp_groups`. -/
theorem group_of_mem_matching {ms : List String} {f k : String}
    (hf : f ∈ ms) (hk : keyOf f = some k) :
    (k, ms.filter (fun x => keyOf x = some k)) ∈ timestamp_groups ms := by
  have hne : ms.filter (fun x => keyOf x = some k) ≠ [] := by
    intro hnil
    have : f ∈ ms.filter (fun x => keyOf x = some k) :=
      List.mem_filter.mpr ⟨hf, by simp [hk]⟩
    rw [hnil] at this
    cases this
  have := @findGroup_mem (timestamp_groups ms) k
    (by rw [findGroup_timestamp_groups]; exact hne)
  rwa [findGroup_timestamp_groups] at this

/-! ### Plan-layer lemmas -/

theorem keyOf_inv {x k : String} (h : keyOf x = some k) :
    ∃ c, PATTERN_match x.toList = some c ∧ new_base_name c = k := by
  unfold keyOf at h
  cases hm : PATTERN_match x.toList with
  | none => rw [hm] at h; cases h
  | some c =>
      rw [hm] at h
      simp only [Option.map_some', Option.some.injEq] at h
      exact ⟨c, rfl, h⟩

theorem extOf_of_parse {x : String} {c : Caps}
    (h : PATTERN_match x.toList = some c) : extOf x = some (String.mk c.ext) := by
  unfold extOf
  rw [h]
  rfl

theorem keyOf_of_parse {x : String} {c : Caps}
    (h : PATTERN_match x.toList = some c) : keyOf x = some (new_base_name c) := by
  unfold keyOf
  rw [h]
  rfl

theorem mem_filter_key {ms : List String} {k x : String}
    (h : x ∈ ms.filter (fun y => keyOf y = some k)) :
    x ∈ ms ∧ keyOf x = some k := by
  obtain ⟨h1, h2⟩ := List.mem_filter.mp h
  exact ⟨h1, of_decide_eq_true h2⟩

theorem posIn_isSome_of_mem {f : String} :
    ∀ {g : List String}, f ∈ g → ∃ idx, posIn f g = some idx := by
  intro g
  induction g with
  | nil => intro h; cases h
  | cons x rest ih =>
      intro h
      by_cases hx : x = f
      · exact ⟨0, by simp [posIn, hx]⟩
      · obtain ⟨idx, hidx⟩ := ih (by
          rcases List.mem_cons.mp h with he | hm
          · exact absurd he.symm hx
          · exact hm)
        exact ⟨idx + 1, by simp [posIn, hx, hidx]⟩

theorem lookup_append_some {f : String} {v : String} :
    ∀ {l1 l2 : List (String × String)}, List.lookup f l1 = some v →
      List.lookup f (l1 ++ l2) = some v
  | [], _, h => by simp [List.lookup] at h
  | (x, w) :: rest, l2, h => by
      cases hfx : (f == x) with
      | true =>
          simp only [List.lookup, hfx] at h ⊢
          simpa using h
      | false =>
          simp only [List.lookup, hfx] at h ⊢
          exact lookup_append_some h

theorem lookup_append_none {f : String} :
    ∀ {l1 l2 : List (String × String)}, List.lookup f l1 = none →
      List.lookup f (l1 ++ l2) = List.lookup f l2
  | [], l2, _ => by simp
  | (x, w) :: rest, l2, h => by
      cases hfx : (f == x) with
      | true => simp only [List.lookup, hfx] at h; cases h
      | false =>
          simp only [List.lookup, hfx] at h ⊢
          exact lookup_append_none h

theorem lookup_eq_none_of_fst_ne {f : String} :
    ∀ {l : List (String × String)}, (∀ q ∈ l, q.1 ≠ f) →
      List.lookup f l = none
  | [], _ => rfl
  | (x, w) :: rest, h => by
      have hx : x ≠ f := h (x, w) (by simp)
      have hfx : (f == x) = false := beq_eq_false_iff_ne.mpr (fun he => hx he.symm)
      simp only [List.lookup, hfx]
      exact lookup_eq_none_of_fst_ne (fun q hq => h q (List.mem_cons_of_mem _ hq))

theorem mem_numberPairs {q : String × String} :
    ∀ {g : List String} {i : Nat} {k : String}, q ∈ numberPairs k i g →
      q.1 ∈ g ∧ ∃ (j : Nat) (e : String), q.2 = k ++ "_" ++ toString j ++ e := by
  intro g
  induction g with
  | nil => intro i k h; cases h
  | cons x rest ih =>
      intro i k h
      cases hx : extOf x with
      | some e0 =>
          rw [numberPairs, hx] at h
          rcases List.mem_cons.mp h with he | hm
          · subst he
            exact ⟨List.mem_cons_self _ _, i, e0, rfl⟩
          · obtain ⟨h1, h2⟩ := ih hm
            exact ⟨List.mem_cons_of_mem _ h1, h2⟩
      | none =>
          rw [numberPairs, hx] at h
          obtain ⟨h1, h2⟩ := ih h
          exact ⟨List.mem_cons_of_mem _ h1, h2⟩

theorem mem_groupPairs {e : String × List String} {q : String × String}
    (h : q ∈ groupPairs e) :
    q.1 ∈ e.2 ∧ ∃ x, q.2 = e.1 ++ x := by
  have hperm := List.perm_insertionSort (fun a b => pyLe a b = true) e.2
  rw [groupPairs] at h
  cases hsort : List.insertionSort (fun a b => pyLe a b = true) e.2 with
  | nil => rw [hsort] at h; cases h
  | cons o t =>
      cases t with
      | nil =>
          rw [hsort] at h
          dsimp only at h
          cases hex : extOf o with
          | some ex =>
              rw [hex] at h
              rcases List.mem_cons.mp h with he | hm
              · subst he
                refine ⟨(hperm.mem_iff).mp (by rw [hsort]; simp), ex, rfl⟩
              · cases hm
          | none => rw [hex] at h; cases h
      | cons o2 t2 =>
          rw [hsort] at h
          dsimp only at h
          obtain ⟨h1, j, e0, h2⟩ := mem_numberPairs h
          refine ⟨(hperm.mem_iff).mp (by rw [hsort]; exact h1), ?_⟩
          exact ⟨"_" ++ toString j ++ e0, by simp [h2, String.append_assoc]⟩

theorem mem_planOf {q : String × String} :
    ∀ {gs : List (String × List String)}, q ∈ planOf gs →
      ∃ e, e ∈ gs ∧ q ∈ groupPairs e
  | [], h => by cases h
  | e :: rest, h => by
      rcases List.mem_append.mp h with h1 | h2
      · exact ⟨e, List.mem_cons_self _ _, h1⟩
      · obtain ⟨e0, he0, hq⟩ := mem_planOf h2
        exact ⟨e0, List.mem_cons_of_mem _ he0, hq⟩

/-- No string that begins with the characters of a well-formed base key
(`YYYYMMDD_…`) matches the pattern: the parser demands a dash after the
first four digits, but a base key continues with more digits. -/
theorem PATTERN_match_base_append {c : Caps}
    (h4 : digitBlock 4 c.y) (h2 : digitBlock 2 c.mo) (r : List Char) :
    PATTERN_match (baseChars c ++ r) = none := by
  obtain ⟨hl2, ha2⟩ := h2
  obtain ⟨a, b, hmo⟩ := List.length_eq_two.mp hl2
  have hdiga : isDig a = true := by
    rw [hmo] at ha2
    simp only [List.all_cons, Bool.and_eq_true] at ha2
    exact ha2.1
  simp only [baseChars, List.append_assoc, List.cons_append, PATTERN_match]
  rw [takeDigits_of_digitBlock _ h4]
  dsimp only [optBind_some]
  rw [hmo]
  dsimp only [List.cons_append]
  rw [expectChar, if_neg (isDig_ne_dash hdiga)]
  rfl

theorem lookup_numberPairs {f e0 : String} :
    ∀ {g : List String} {i idx : Nat} {k : String},
      (∀ x ∈ g, (extOf x).isSome = true) →
      posIn f g = some idx →
      extOf f = some e0 →
      List.lookup f (numberPairs k i g)
        = some (k ++ "_" ++ toString (i + idx) ++ e0) := by
  intro g
  induction g with
  | nil => intro i idx k _ hpos _; simp [posIn] at hpos
  | cons x rest ih =>
      intro i idx k hall hpos hext
      by_cases hx : x = f
      · subst hx
        have hidx : idx = 0 := by
          simp [posIn] at hpos
          omega
        subst hidx
        simp [numberPairs, hext, List.lookup]
      · simp only [posIn, if_neg hx] at hpos
        rw [Option.map_eq_some'] at hpos
        obtain ⟨idx0, hp0, hidx⟩ := hpos
        have hallx : (extOf x).isSome = true := hall x (by simp)
        obtain ⟨ex, hex⟩ := Option.isSome_iff_exists.mp hallx
        have hfx : (f == x) = false := beq_eq_false_iff_ne.mpr (Ne.symm hx)
        simp only [numberPairs, hex, List.lookup, hfx]
        rw [ih (fun y hy => hall y (List.mem_cons_of_mem _ hy)) hp0 hext]
        rw [← hidx]
        have harith : i + 1 + idx0 = i + (idx0 + 1) := by omega
        rw [harith]

theorem specNewName_isSome {ms : List String} {f : String} {c : Caps}
    (hc : PATTERN_match f.toList = some c) (hfm : f ∈ ms) :
    (specNewName ms f).isSome = true := by
  simp only [specNewName, hc]
  have hfG : f ∈ ms.filter (fun x => keyOf x = some (new_base_name c)) :=
    List.mem_filter.mpr ⟨hfm, by simp [keyOf_of_parse hc]⟩
  have hfs : f ∈ List.insertionSort (fun a b => pyLe a b = true)
      (ms.filter (fun x => keyOf x = some (new_base_name c))) :=
    (List.perm_insertionSort _ _).mem_iff.mpr hfG
  by_cases hlen : (List.insertionSort (fun a b => pyLe a b = true)
      (ms.filter (fun x => keyOf x = some (new_base_name c)))).length = 1
  · rw [if_pos hlen]
    rfl
  · rw [if_neg hlen]
    obtain ⟨idx, hidx⟩ := posIn_isSome_of_mem hfs
    rw [hidx]
    rfl

theorem lookup_groupPairs {ms : List String} {f k : String} {c : Caps}
    (hc : PATTERN_match f.toList = some c)
    (hk : new_base_name c = k)
    (hf : f ∈ ms.filter (fun x => keyOf x = some k)) :
    List.lookup f (groupPairs (k, ms.filter (fun x => keyOf x = some k)))
      = specNewName ms f := by
  have hext : extOf f = some (String.mk c.ext) := extOf_of_parse hc
  have hallext : ∀ x ∈ ms.filter (fun x => keyOf x = some k),
      (extOf x).isSome = true := by
    intro x hx
    obtain ⟨-, hkx⟩ := mem_filter_key hx
    obtain ⟨cx, hcx, -⟩ := keyOf_inv hkx
    rw [extOf_of_parse hcx]
    rfl
  have hperm := List.perm_insertionSort (fun a b => pyLe a b = true)
    (ms.filter (fun x => keyOf x = some k))
  simp only [specNewName, hc, hk]
  rw [groupPairs]
  cases hsort : List.insertionSort (fun a b => pyLe a b = true)
      (ms.filter (fun x => keyOf x = some k)) with
  | nil =>
      exfalso
      rw [hsort] at hperm
      rw [List.Perm.eq_nil hperm.symm] at hf
      cases hf
  | cons o t =>
      cases t with
      | nil =>
          rw [hsort] at hperm
          have hGo : ms.filter (fun x => keyOf x = some k) = [o] :=
            List.perm_singleton.mp hperm.symm
          have hfo : f = o := by
            rw [hGo] at hf
            simpa using hf
          subst hfo
          dsimp only
          rw [hext]
          simp [List.lookup]
      | cons o2 t2 =>
          dsimp only
          have hfs : f ∈ (o :: o2 :: t2) := by
            rw [← hsort]
            exact (List.perm_insertionSort _ _).mem_iff.mpr hf
          obtain ⟨idx, hidx⟩ := posIn_isSome_of_mem hfs
          rw [if_neg (by simp)]
          rw [hidx]
          rw [lookup_numberPairs
            (fun x hx => hallext x ((List.perm_insertionSort _ _).mem_iff.mp
              (by rw [hsort]; exact hx))) hidx hext]
          simp only [Option.map_some']
          rw [Nat.add_comm 1 idx]

theorem lookup_planOf {ms : List String} {f k : String} {c : Caps}
    (hc : PATTERN_match f.toList = some c) (hk : new_base_name c = k)
    (hfm : f ∈ ms) :
    ∀ {gs : List (String × List String)},
      (∀ e ∈ gs, e.2 = ms.filter (fun x => keyOf x = some e.1)) →
      (k, ms.filter (fun x => keyOf x = some k)) ∈ gs →
      List.lookup f (planOf gs) = specNewName ms f := by
  have hkf : keyOf f = some k := by rw [keyOf_of_parse hc, hk]
  have hfG : f ∈ ms.filter (fun x => keyOf x = some k) :=
    List.mem_filter.mpr ⟨hfm, by simp [hkf]⟩
  intro gs
  induction gs with
  | nil => intro _ h; cases h
  | cons e rest ih =>
      obtain ⟨k0, vs0⟩ := e
      intro hchar hmem
      have hvs0 : vs0 = ms.filter (fun x => keyOf x = some k0) :=
        hchar (k0, vs0) (List.mem_cons_self _ _)
      rw [planOf]
      by_cases hek : k0 = k
      · subst hek
        subst hvs0
        obtain ⟨v, hv⟩ := Option.isSome_iff_exists.mp
          (specNewName_isSome hc hfm)
        have hlook := lookup_groupPairs hc hk hfG
        rw [hv] at hlook
        rw [lookup_append_some hlook, hv]
      · have hnone : List.lookup f
            (groupPairs (k0, vs0)) = none := by
          apply lookup_eq_none_of_fst_ne
          intro q hq
          obtain ⟨hq1, -⟩ := mem_groupPairs hq
          rw [hvs0] at hq1
          obtain ⟨-, hkq⟩ := mem_filter_key hq1
          intro hqf
          rw [hqf, hkf] at hkq
          exact hek ((Option.some.injEq .. |>.mp hkq).symm)
        rw [lookup_append_none hnone]
        refine ih (fun e' he' => hchar e' (List.mem_cons_of_mem _ he')) ?_
        rcases List.mem_cons.mp hmem with he | hm
        · exfalso
          exact hek ((Prod.mk.injEq .. |>.mp he).1.symm)
        · exact hm

/-- The rename plan, viewed as a mapping, sends a matched file to the
value described by the spec's suffixing rules. -/
theorem lookup_plan_spec {ms : List String} {f : String} {c : Caps}
    (hc : PATTERN_match f.toList = some c) (hfm : f ∈ ms) :
    List.lookup f (rename_plan ms) = specNewName ms f := by
  rw [rename_plan]
  refine lookup_planOf hc rfl hfm ?_ ?_
  · intro e he
    obtain ⟨k0, vs0⟩ := e
    exact entry_timestamp_groups he
  · exact group_of_mem_matching hfm (keyOf_of_parse hc)

theorem lookup_plan_none {ms : List String} {f : String} (hf : f ∉ ms) :
    List.lookup f (rename_plan ms) = none := by
  apply lookup_eq_none_of_fst_ne
  intro q hq
  obtain ⟨e, he, hqe⟩ := mem_planOf hq
  obtain ⟨hq1, -⟩ := mem_groupPairs hqe
  obtain ⟨k0, vs0⟩ := e
  rw [entry_timestamp_groups he] at hq1
  obtain ⟨hq1m, -⟩ := mem_filter_key hq1
  intro hqf
  exact hf (hqf ▸ hq1m)

theorem char_eq_of_toNat_eq {a b : Char} (h : a.toNat = b.toNat) : a = b :=
  Char.ext (UInt32.ext h)

theorem listLe_total : ∀ as bs : List Char, listLe as bs = true ∨ listLe bs as = true
  | [], _ => Or.inl rfl
  | _ :: _, [] => Or.inr rfl
  | a :: as, b :: bs => by
      by_cases h1 : a.toNat < b.toNat
      · left
        simp [listLe, h1]
      · by_cases h2 : b.toNat < a.toNat
        · right
          simp [listLe, h2]
        · rcases listLe_total as bs with h | h
          · left
            simp [listLe, h1, h2, h]
          · right
            simp [listLe, h1, h2, h]

theorem listLe_trans :
    ∀ {as bs cs : List Char}, listLe as bs = true → listLe bs cs = true →
      listLe as cs = true
  | [], _, _, _, _ => rfl
  | _ :: _, [], _, hab, _ => by simp [listLe] at hab
  | _ :: _, _ :: _, [], _, hbc => by simp [listLe] at hbc
  | a :: as, b :: bs, c :: cs, hab, hbc => by
      simp only [listLe] at hab hbc ⊢
      by_cases h1 : a.toNat < b.toNat
      · by_cases h2 : b.toNat < c.toNat
        · rw [if_pos (by omega : a.toNat < c.toNat)]
        · rw [if_neg h2] at hbc
          by_cases h3 : c.toNat < b.toNat
          · rw [if_pos h3] at hbc
            cases hbc
          · rw [if_pos (by omega : a.toNat < c.toNat)]
      · rw [if_neg h1] at hab
        by_cases h4 : b.toNat < a.toNat
        · rw [if_pos h4] at hab
          cases hab
        · rw [if_neg h4] at hab
          by_cases h2 : b.toNat < c.toNat
          · rw [if_pos (by omega : a.toNat < c.toNat)]
          · rw [if_neg h2] at hbc
            by_cases h3 : c.toNat < b.toNat
            · rw [if_pos h3] at hbc
              cases hbc
            · rw [if_neg h3] at hbc
              rw [if_neg (by omega : ¬ a.toNat < c.toNat),
                if_neg (by omega : ¬ c.toNat < a.toNat)]
              exact listLe_trans hab hbc

theorem listLe_antisymm :
    ∀ {as bs : List Char}, listLe as bs = true → listLe bs as = true → as = bs
  | [], [], _, _ => rfl
  | [], _ :: _, _, hba => by simp [listLe] at hba
  | _ :: _, [], hab, _ => by simp [listLe] at hab
  | a :: as, b :: bs, hab, hba => by
      simp only [listLe] at hab hba
      by_cases h1 : a.toNat < b.toNat
      · rw [if_neg (by omega : ¬ b.toNat < a.toNat), if_pos h1] at hba
        cases hba
      · by_cases h2 : b.toNat < a.toNat
        · rw [if_neg h1, if_pos h2] at hab
          cases hab
        · rw [if_neg h1, if_neg h2] at hab
          rw [if_neg h2, if_neg h1] at hba
          have hc : a = b := char_eq_of_toNat_eq (by omega)
          rw [hc, listLe_antisymm hab hba]

theorem pyLe_total (a b : String) : pyLe a b = true ∨ pyLe b a = true :=
  listLe_total a.data b.data

theorem pyLe_trans {a b c : String} (h1 : pyLe a b = true) (h2 : pyLe b c = true) :
    pyLe a c = true :=
  listLe_trans h1 h2

theorem pyLe_antisymm {a b : String} (h1 : pyLe a b = true) (h2 : pyLe b a = true) :
    a = b := by
  have hd : a.data = b.data := listLe_antisymm h1 h2
  cases a
  cases b
  exact congrArg String.mk hd

theorem specNewName_perm {ms1 ms2 : List String}
    (hp : List.Perm ms1 ms2) (f : String) :
    specNewName ms1 f = specNewName ms2 f := by
  unfold specNewName
  cases hm : PATTERN_match f.toList with
  | none => rfl
  | some c =>
      dsimp only
      haveI : IsTotal String (fun a b => pyLe a b = true) := ⟨pyLe_total⟩
      haveI : IsTrans String (fun a b => pyLe a b = true) :=
        ⟨fun _ _ _ => pyLe_trans⟩
      haveI : IsAntisymm String (fun a b => pyLe a b = true) :=
        ⟨fun _ _ => pyLe_antisymm⟩
      have hpf := hp.filter (fun x => decide (keyOf x = some (new_base_name c)))
      have hsorteq : List.insertionSort (fun a b => pyLe a b = true)
            (ms1.filter (fun x => keyOf x = some (new_base_name c)))
          = List.insertionSort (fun a b => pyLe a b = true)
            (ms2.filter (fun x => keyOf x = some (new_base_name c))) :=
        List.eq_of_perm_of_sorted
          ((List.perm_insertionSort _ _).trans
            (hpf.trans (List.perm_insertionSort _ _).symm))
          (List.sorted_insertionSort _ _) (List.sorted_insertionSort _ _)
      rw [hsorteq]

/-- Facts about every pair of the rename plan: the original is a matched
member of the scanned list, the planned name never matches the pattern
(its fifth character is a digit where the pattern demands a dash), and in
particular the two are different. -/
theorem plan_pair_facts {ms : List String} {p : String × String}
    (hp : p ∈ rename_plan ms) :
    p.1 ∈ ms ∧ (PATTERN_match p.1.toList).isSome = true
    ∧ PATTERN_match p.2.toList = none ∧ p.1 ≠ p.2 := by
  obtain ⟨e, he, hqe⟩ := mem_planOf hp
  obtain ⟨hp1, x, hp2⟩ := mem_groupPairs hqe
  obtain ⟨k0, vs0⟩ := e
  rw [entry_timestamp_groups he] at hp1
  obtain ⟨hp1m, hkp⟩ := mem_filter_key hp1
  obtain ⟨c, hc, hck⟩ := keyOf_inv hkp
  have h2none : PATTERN_match p.2.toList = none := by
    rw [hp2]
    dsimp only
    rw [← hck]
    have hdecomp : (new_base_name c ++ x).toList = baseChars c ++ x.toList := by
      show (new_base_name c ++ x).data = baseChars c ++ x.data
      rw [String.data_append]
      rfl
    rw [hdecomp]
    obtain ⟨p0, sz, mb, tl, -, h4, h2m, -⟩ := PATTERN_match_eq_some hc
    exact PATTERN_match_base_append h4 h2m x.toList
  have h1some : (PATTERN_match p.1.toList).isSome = true := by
    rw [hc]
    rfl
  have hne : p.1 ≠ p.2 := by
    intro he12
    rw [he12, h2none] at h1some
    cases h1some
  exact ⟨hp1m, h1some, h2none, hne⟩

theorem mem_of_lookup_some {f v : String} :
    ∀ {l : List (String × String)}, List.lookup f l = some v →
      f ∈ l.map Prod.fst
  | [], h => by cases h
  | (x, w) :: rest, h => by
      cases hfx : (f == x) with
      | true =>
          simp only [List.map_cons]
          exact List.mem_cons.mpr (Or.inl (beq_iff_eq.mp hfx))
      | false =>
          simp only [List.lookup, hfx] at h
          simp only [List.map_cons]
          exact List.mem_cons_of_mem _ (mem_of_lookup_some h)

/-- Every matched file is the source of some plan pair. -/
theorem mem_plan_fst_of_matching {ms : List String} {f : String} {c : Caps}
    (hc : PATTERN_match f.toList = some c) (hf : f ∈ ms) :
    f ∈ (rename_plan ms).map Prod.fst := by
  obtain ⟨v, hv⟩ := Option.isSome_iff_exists.mp (specNewName_isSome hc hf)
  have hl := lookup_plan_spec hc hf
  rw [hv] at hl
  exact mem_of_lookup_some hl

theorem numberPairs_fst_nodup :
    ∀ {g : List String} {i : Nat} {k : String}, g.Nodup →
      ((numberPairs k i g).map Prod.fst).Nodup := by
  intro g
  induction g with
  | nil => intro i k _; simp [numberPairs]
  | cons x rest ih =>
      intro i k hnd
      rw [List.nodup_cons] at hnd
      cases hx : extOf x with
      | some e0 =>
          rw [numberPairs, hx]
          simp only [List.map_cons, List.nodup_cons]
          refine ⟨?_, ih hnd.2⟩
          intro hmem
          obtain ⟨q, hq, hq1⟩ := List.mem_map.mp hmem
          have hq2 := (mem_numberPairs hq).1
          rw [hq1] at hq2
          exact hnd.1 hq2
      | none =>
          rw [numberPairs, hx]
          exact ih hnd.2

theorem groupPairs_fst_nodup {vs : List String} (hnd : vs.Nodup) (k : String) :
    ((groupPairs (k, vs)).map Prod.fst).Nodup := by
  rw [groupPairs]
  dsimp only
  cases hsort : List.insertionSort (fun a b => pyLe a b = true) vs with
  | nil => simp [numberPairs]
  | cons o t =>
      cases t with
      | nil =>
          cases hex : extOf o <;> simp [hex]
      | cons o2 t2 =>
          apply numberPairs_fst_nodup
          have hsnd : (List.insertionSort (fun a b => pyLe a b = true) vs).Nodup :=
            (List.perm_insertionSort _ _).nodup_iff.mpr hnd
          rw [hsort] at hsnd
          exact hsnd

theorem planOf_fst_nodup {ms : List String} (hnd : ms.Nodup) :
    ∀ {gs : List (String × List String)},
      (gs.map Prod.fst).Nodup →
      (∀ e ∈ gs, e.2 = ms.filter (fun x => keyOf x = some e.1)) →
      ((planOf gs).map Prod.fst).Nodup := by
  intro gs
  induction gs with
  | nil => intro _ _; simp [planOf]
  | cons e rest ih =>
      obtain ⟨k0, vs0⟩ := e
      intro hknd hchar
      simp only [List.map_cons, List.nodup_cons] at hknd
      have hvs0 : vs0 = ms.filter (fun x => keyOf x = some k0) :=
        hchar (k0, vs0) (List.mem_cons_self _ _)
      rw [planOf, List.map_append]
      refine List.Nodup.append ?_
        (ih hknd.2 (fun e' he' => hchar e' (List.mem_cons_of_mem _ he'))) ?_
      · have hvnd : vs0.Nodup := by rw [hvs0]; exact hnd.filter _
        exact groupPairs_fst_nodup hvnd k0
      · intro a ha hb
        obtain ⟨q, hq, hq1⟩ := List.mem_map.mp ha
        obtain ⟨hq2, -⟩ := mem_groupPairs hq
        rw [hvs0] at hq2
        obtain ⟨-, hka⟩ := mem_filter_key hq2
        obtain ⟨q', hq', hq'1⟩ := List.mem_map.mp hb
        obtain ⟨e', he', hqe'⟩ := mem_planOf hq'
        obtain ⟨k', vs'⟩ := e'
        obtain ⟨hq'2, -⟩ := mem_groupPairs hqe'
        rw [hchar (k', vs') (List.mem_cons_of_mem _ he')] at hq'2
        obtain ⟨-, hka'⟩ := mem_filter_key hq'2
        rw [hq1] at hka
        rw [hq'1] at hka'
        rw [hka] at hka'
        have hkk : k0 = k' := Option.some.injEq .. |>.mp hka'
        have hk' : k' ∈ rest.map Prod.fst := List.mem_map_of_mem Prod.fst he'
        exact hknd.1 (hkk ▸ hk')

theorem rename_plan_fst_nodup {ms : List String} (hnd : ms.Nodup) :
    ((rename_plan ms).map Prod.fst).Nodup := by
  rw [rename_plan]
  exact planOf_fst_nodup hnd (keys_nodup_timestamp_groups ms)
    (fun e he => by obtain ⟨k0, vs0⟩ := e; exact entry_timestamp_groups he)

/-! ### Execution-layer helper lemmas -/

theorem execPair_dry (ok : Bool) (fs : List String) (p : String × String) :
    execPair true ok fs p = (fs, 0) := by
  simp [execPair]

theorem execPlan_dry :
    ∀ (pairs : List (String × String)) (oracle : Nat → Bool) (fs : List String),
      execPlan true oracle fs pairs = (fs, 0)
  | [], _, _ => rfl
  | p :: rest, oracle, fs => by
      simp only [execPlan, execPair_dry]
      simp [execPlan_dry rest]

theorem execPair_conflict {fs : List String} {p : String × String}
    (hex : p.2 ∈ fs) (hne : p.2 ≠ p.1) (dry_run ok : Bool) :
    execPair dry_run ok fs p = (fs, 0) := by
  by_cases h1 : p.1 = p.2
  · simp [execPair, h1]
  · rw [execPair, if_neg h1, if_pos ⟨hex, hne⟩]

theorem execPair_fail (fs : List String) (p : String × String) (dry_run : Bool) :
    (execPair dry_run false fs p).1 = fs := by
  unfold execPair
  split
  · rfl
  · split
    · rfl
    · split
      · rfl
      · simp

theorem mem_execPair {x : String} {fs : List String} {p : String × String}
    (hx : x ∈ fs) (hne : x ≠ p.1) (dry_run ok : Bool) :
    x ∈ (execPair dry_run ok fs p).1 := by
  unfold execPair
  split
  · exact hx
  split
  · exact hx
  split
  · exact hx
  split
  · exact List.mem_append_left _ ((List.mem_erase_of_ne hne).mpr hx)
  · exact hx

theorem mem_execPlan {x : String} :
    ∀ {pairs : List (String × String)} {fs : List String} (oracle : Nat → Bool)
      (dry_run : Bool), x ∈ fs → (∀ q ∈ pairs, x ≠ q.1) →
      x ∈ (execPlan dry_run oracle fs pairs).1
  | [], _, _, _, hx, _ => hx
  | p :: rest, fs, oracle, dry_run, hx, hq => by
      simp only [execPlan]
      exact mem_execPlan (fun n => oracle (n + 1)) dry_run
        (mem_execPair hx (hq p (by simp)) dry_run (oracle 0))
        (fun q hqr => hq q (List.mem_cons_of_mem p hqr))

theorem execPair_renames {fs : List String} {p : String × String}
    (hne : p.1 ≠ p.2) (hnc : p.2 ∉ fs) (hin : p.1 ∈ fs) :
    execPair false true fs p = ((fs.erase p.1) ++ [p.2], 1) := by
  rw [execPair, if_neg hne, if_neg (fun hco => hnc hco.1)]
  simp [hin]

/-- When no planned target pre-exists, all sources exist and are
pairwise distinct, and all targets are pairwise distinct, the execution
loop renames every pair; each surviving entry is either an untouched
non-source entry or one of the planned targets. -/
theorem execPlan_all_renames :
    ∀ {pairs : List (String × String)} {fs : List String} (oracle : Nat → Bool),
      (∀ n, oracle n = true) →
      fs.Nodup →
      (∀ p ∈ pairs, p.1 ∈ fs) →
      (∀ p ∈ pairs, p.2 ∉ fs) →
      (∀ p ∈ pairs, p.1 ≠ p.2) →
      (pairs.map Prod.fst).Nodup →
      (pairs.map Prod.snd).Nodup →
      ∀ x ∈ (execPlan false oracle fs pairs).1,
        (x ∈ fs ∧ x ∉ pairs.map Prod.fst) ∨ x ∈ pairs.map Prod.snd := by
  intro pairs
  induction pairs with
  | nil =>
      intro fs oracle hor hnd _ _ _ _ _ x hx
      exact Or.inl ⟨hx, by simp⟩
  | cons p rest ih =>
      intro fs oracle hor hnd hin hfree hne hf hs x hx
      have hph : p ∈ p :: rest := List.mem_cons_self _ _
      simp only [execPlan] at hx
      rw [hor 0, execPair_renames (hne p hph) (hfree p hph) (hin p hph)] at hx
      dsimp only at hx
      simp only [List.map_cons, List.nodup_cons] at hf hs
      have hnd' : ((fs.erase p.1) ++ [p.2]).Nodup := by
        refine List.Nodup.append (hnd.erase p.1) (List.nodup_singleton _) ?_
        intro a ha hb
        rw [List.mem_singleton] at hb
        exact hfree p hph (hb ▸ List.erase_subset _ _ ha)
      have hin' : ∀ q ∈ rest, q.1 ∈ (fs.erase p.1) ++ [p.2] := by
        intro q hq
        have hq1 : q.1 ≠ p.1 := by
          intro he
          exact hf.1 (he ▸ List.mem_map_of_mem Prod.fst hq)
        exact List.mem_append_left _ ((List.mem_erase_of_ne hq1).mpr
          (hin q (List.mem_cons_of_mem _ hq)))
      have hfree' : ∀ q ∈ rest, q.2 ∉ (fs.erase p.1) ++ [p.2] := by
        intro q hq hmem
        rcases List.mem_append.mp hmem with h1 | h2
        · exact hfree q (List.mem_cons_of_mem _ hq) (List.erase_subset _ _ h1)
        · rw [List.mem_singleton] at h2
          exact hs.1 (h2 ▸ List.mem_map_of_mem Prod.snd hq)
      have hres := ih (fun n => oracle (n + 1)) (fun n => hor (n + 1)) hnd'
        hin' hfree' (fun q hq => hne q (List.mem_cons_of_mem _ hq))
        hf.2 hs.2 x hx
      rcases hres with ⟨hxfs', hxnf⟩ | hsnd
      · rcases List.mem_append.mp hxfs' with h1 | h2
        · have hx2 := (List.Nodup.mem_erase_iff hnd).mp h1
          refine Or.inl ⟨hx2.2, ?_⟩
          simp only [List.map_cons, List.mem_cons]
          rintro (he | hm)
          · exact hx2.1 he
          · exact hxnf hm
        · rw [List.mem_singleton] at h2
          exact Or.inr (by simp [h2])
      · exact Or.inr (List.mem_cons_of_mem _ hsnd)

/-! ### Claim theorems: C2, C3, C6, C8, C9 -/

/-- C1 (confirmed).  The rename plan maps every matched original filename
to the name built from its date/time base key: no numeric suffix when the
file's group (all matched files sharing the key) is a singleton, and
suffix `_(idx+1)` when the file sits at 0-based position `idx` of the
lexicographically sorted group, the extension taken from the file's own
captures with case preserved (`specNewName` states exactly this rule). -/
theorem claim_C1_plan_mapping (files : List String) (hnd : files.Nodup)
    (f : String) (hf : f ∈ matching_files files) :
    List.lookup f (rename_plan (matching_files files))
      = specNewName (matching_files files) f
    ∧ (specNewName (matching_files files) f).isSome = true := by
  obtain ⟨-, hps⟩ := List.mem_filter.mp hf
  obtain ⟨c, hc⟩ := Option.isSome_iff_exists.mp hps
  exact ⟨lookup_plan_spec hc hf, specNewName_isSome hc hf⟩

/-- Witness for C1 on the spec's own scenario: a burst pair sharing one
second plus a lone third photo and a non-matching file. -/
theorem claim_C1_witness :
    List.lookup "2022-01-14-14-33-00_photo_12.683_MB.jpg"
        (rename_plan (matching_files
          ["2022-01-14-14-33-00_photo_12.683_MB.jpg",
           "2022-01-14-14-33-00_photo_9.1_MB.JPG",
           "vacation.jpg",
           "2023-05-01-09-00-00_photo_3.2_MB.jpg"]))
      = specNewName (matching_files
          ["2022-01-14-14-33-00_photo_12.683_MB.jpg",
           "2022-01-14-14-33-00_photo_9.1_MB.JPG",
           "vacation.jpg",
           "2023-05-01-09-00-00_photo_3.2_MB.jpg"])
          "2022-01-14-14-33-00_photo_12.683_MB.jpg"
    ∧ (specNewName (matching_files
          ["2022-01-14-14-33-00_photo_12.683_MB.jpg",
           "2022-01-14-14-33-00_photo_9.1_MB.JPG",
           "vacation.jpg",
           "2023-05-01-09-00-00_photo_3.2_MB.jpg"])
          "2022-01-14-14-33-00_photo_12.683_MB.jpg").isSome = true :=
  claim_C1_plan_mapping
    ["2022-01-14-14-33-00_photo_12.683_MB.jpg",
     "2022-01-14-14-33-00_photo_9.1_MB.JPG",
     "vacation.jpg",
     "2023-05-01-09-00-00_photo_3.2_MB.jpg"]
    (by decide) "2022-01-14-14-33-00_photo_12.683_MB.jpg" (by decide)

/-- C5 (confirmed).  Determinism of planning: two listings whose matching
filenames form the same set (here: are a permutation of each other, both
listings duplicate-free) produce the same plan as a mapping from original
to new name, for every filename. -/
theorem claim_C5_determinism (files1 files2 : List String) (f : String)
    (h1 : files1.Nodup) (h2 : files2.Nodup)
    (hperm : List.Perm (matching_files files1) (matching_files files2)) :
    List.lookup f (rename_plan (matching_files files1))
      = List.lookup f (rename_plan (matching_files files2)) := by
  by_cases hf1 : f ∈ matching_files files1
  · have hf2 : f ∈ matching_files files2 := hperm.mem_iff.mp hf1
    obtain ⟨-, hps⟩ := List.mem_filter.mp hf1
    obtain ⟨c, hc⟩ := Option.isSome_iff_exists.mp hps
    rw [lookup_plan_spec hc hf1, lookup_plan_spec hc hf2]
    exact specNewName_perm hperm f
  · have hf2 : f ∉ matching_files files2 := fun hm => hf1 (hperm.mem_iff.mpr hm)
    rw [lookup_plan_none hf1, lookup_plan_none hf2]

/-- Witness for C5 on two listings with the same matched set in reversed
order. -/
theorem claim_C5_witness :
    List.lookup "2022-01-14-14-33-00_photo_12.683_MB.jpg"
        (rename_plan (matching_files
          ["2022-01-14-14-33-00_photo_12.683_MB.jpg",
           "2022-01-14-14-33-00_photo_9.1_MB.JPG", "notes.txt"]))
      = List.lookup "2022-01-14-14-33-00_photo_12.683_MB.jpg"
        (rename_plan (matching_files
          ["2022-01-14-14-33-00_photo_9.1_MB.JPG",
           "2022-01-14-14-33-00_photo_12.683_MB.jpg"])) :=
  claim_C5_determinism
    ["2022-01-14-14-33-00_photo_12.683_MB.jpg",
     "2022-01-14-14-33-00_photo_9.1_MB.JPG", "notes.txt"]
    ["2022-01-14-14-33-00_photo_9.1_MB.JPG",
     "2022-01-14-14-33-00_photo_12.683_MB.jpg"]
    "2022-01-14-14-33-00_photo_12.683_MB.jpg"
    (by decide) (by decide) (by decide)

/-- C10 (confirmed, implicit claim).  A planned pair never has original
equal to new name (originals match the pattern, planned names — base key
plus optional suffix — never do, already their fifth character being a
digit where the pattern demands a dash), so the execution loop's no-op
branch is unreachable, and in apply mode a pair that performs no
`os.rename` call was necessarily skipped by the conflict check. -/
theorem claim_C10_no_noop (files : List String) (p : String × String)
    (hp : p ∈ rename_plan (matching_files files)) :
    p.1 ≠ p.2
    ∧ (PATTERN_match p.1.toList).isSome = true
    ∧ PATTERN_match p.2.toList = none
    ∧ (∀ ok fs, (execPair false ok fs p).2 = 0 → p.2 ∈ fs ∧ p.2 ≠ p.1) := by
  obtain ⟨-, h1some, h2none, hne⟩ := plan_pair_facts hp
  refine ⟨hne, h1some, h2none, ?_⟩
  intro ok fs hzero
  rw [execPair, if_neg hne] at hzero
  by_cases hconf : p.2 ∈ fs ∧ p.2 ≠ p.1
  · exact hconf
  · rw [if_neg hconf] at hzero
    simp at hzero

/-- Witness for C10 on a singleton plan. -/
theorem claim_C10_witness :
    ("2022-01-14-14-33-00_photo_12.683_MB.jpg", "20220114_143300_photo.jpg").1
      ≠ ("2022-01-14-14-33-00_photo_12.683_MB.jpg", "20220114_143300_photo.jpg").2
    ∧ (PATTERN_match ("2022-01-14-14-33-00_photo_12.683_MB.jpg",
        "20220114_143300_photo.jpg").1.toList).isSome = true
    ∧ PATTERN_match ("2022-01-14-14-33-00_photo_12.683_MB.jpg",
        "20220114_143300_photo.jpg").2.toList = none
    ∧ (∀ ok fs, (execPair false ok fs
        ("2022-01-14-14-33-00_photo_12.683_MB.jpg",
         "20220114_143300_photo.jpg")).2 = 0 →
        ("2022-01-14-14-33-00_photo_12.683_MB.jpg",
         "20220114_143300_photo.jpg").2 ∈ fs
        ∧ ("2022-01-14-14-33-00_photo_12.683_MB.jpg",
           "20220114_143300_photo.jpg").2
          ≠ ("2022-01-14-14-33-00_photo_12.683_MB.jpg",
             "20220114_143300_photo.jpg").1) :=
  claim_C10_no_noop ["2022-01-14-14-33-00_photo_12.683_MB.jpg"]
    ("2022-01-14-14-33-00_photo_12.683_MB.jpg", "20220114_143300_photo.jpg")
    (by decide)

/-- C2 (confirmed).  Collision safety: a plan pair whose target name is an
existing entry distinct from its source is skipped without touching the
listing and without calling `os.rename`; and any entry that is never the
source of a pair survives the whole execution loop, so no existing entry
other than a rename's own source is ever overwritten. -/
theorem claim_C2_collision_safety (dry_run ok : Bool) (oracle : Nat → Bool)
    (fs : List String) (p : String × String) (pairs : List (String × String))
    (x : String) (hex : p.2 ∈ fs) (hne : p.2 ≠ p.1)
    (hx : x ∈ fs) (hxsrc : ∀ q ∈ pairs, x ≠ q.1) :
    execPair dry_run ok fs p = (fs, 0) ∧ x ∈ (execPlan dry_run oracle fs pairs).1 :=
  ⟨execPair_conflict hex hne dry_run ok, mem_execPlan oracle dry_run hx hxsrc⟩

/-- Witness for C2 at a concrete listing and plan. -/
theorem claim_C2_witness :
    execPair false true ["keep.txt", "a.jpg", "b.jpg"] ("a.jpg", "b.jpg")
      = (["keep.txt", "a.jpg", "b.jpg"], 0)
    ∧ "keep.txt" ∈ (execPlan false (fun _ => true) ["keep.txt", "a.jpg", "b.jpg"]
        [("a.jpg", "x.jpg")]).1 :=
  claim_C2_collision_safety false true (fun _ => true) ["keep.txt", "a.jpg", "b.jpg"]
    ("a.jpg", "b.jpg") [("a.jpg", "x.jpg")] "keep.txt"
    (by decide) (by decide) (by decide) (by decide)

/-- C3 (confirmed).  Preview mode never mutates the listing and performs
zero `os.rename` calls, for every input listing and every oracle. -/
theorem claim_C3_preview_pure (oracle : Nat → Bool) (fs : List String) :
    rename_files_with_deduplication true oracle fs = (fs, 0) := by
  simp only [rename_files_with_deduplication]
  by_cases hms : matching_files fs = []
  · rw [if_pos hms]
  · rw [if_neg hms]
    exact execPlan_dry _ oracle fs

/-- C8 (confirmed).  Per-pair error isolation: when the `os.rename` call
for the first pair fails (oracle says `false`), the listing is unchanged
by that pair and every remaining pair is still processed from that same
listing; the failure never propagates past its pair. -/
theorem claim_C8_failure_isolated (oracle : Nat → Bool) (fs : List String)
    (p : String × String) (rest : List (String × String))
    (hfail : oracle 0 = false) :
    (execPair false false fs p).1 = fs ∧
    (execPlan false oracle fs (p :: rest)).1 =
      (execPlan false (fun n => oracle (n + 1)) fs rest).1 := by
  refine ⟨execPair_fail fs p false, ?_⟩
  simp only [execPlan, hfail, execPair_fail]

/-- Witness for C8 on a concrete failing run. -/
theorem claim_C8_witness :
    (execPair false false ["2022-01-14-14-33-00_photo_1.0_MB.jpg"]
        ("2022-01-14-14-33-00_photo_1.0_MB.jpg", "20220114_143300_photo.jpg")).1
      = ["2022-01-14-14-33-00_photo_1.0_MB.jpg"]
    ∧ (execPlan false (fun _ => false) ["2022-01-14-14-33-00_photo_1.0_MB.jpg"]
        [("2022-01-14-14-33-00_photo_1.0_MB.jpg", "20220114_143300_photo.jpg")]).1 =
      (execPlan false (fun n => (fun _ => false) (n + 1))
        ["2022-01-14-14-33-00_photo_1.0_MB.jpg"] []).1 :=
  claim_C8_failure_isolated (fun _ => false)
    ["2022-01-14-14-33-00_photo_1.0_MB.jpg"]
    ("2022-01-14-14-33-00_photo_1.0_MB.jpg", "20220114_143300_photo.jpg") [] rfl

/-- C9 (corrected) counterexample: the script also enters apply mode on
`EXECUTE`, a value distinct from the literal trigger token `execute`, so
"apply mode iff the first argument is the literal token" fails. -/
theorem claim_C9_counterexample :
    is_dry_run_for ["rename.py", "execute"] = false
    ∧ is_dry_run_for ["rename.py", "EXECUTE"] = false
    ∧ ("EXECUTE" : String) ≠ "execute" := by
  refine ⟨rfl, rfl, by decide⟩

/-- C9 (amended).  Apply mode is selected iff a first argument is present
and its (ASCII-)lowercasing equals `execute`; any other argument list
keeps preview mode. -/
theorem claim_C9_amended (argv : List String) :
    is_dry_run_for argv = false ↔
      ∃ prog a rest, argv = prog :: a :: rest ∧ strLower a = "execute" := by
  cases argv with
  | nil => simp [is_dry_run_for]
  | cons prog t =>
      cases t with
      | nil => simp [is_dry_run_for]
      | cons a rest =>
          simp only [is_dry_run_for, Bool.not_eq_false', beq_iff_eq]
          constructor
          · intro hl
            exact ⟨prog, a, rest, rfl, hl⟩
          · rintro ⟨p0, a0, r0, heq, hl⟩
            obtain ⟨-, h2⟩ := List.cons.injEq .. |>.mp heq
            obtain ⟨h3, -⟩ := List.cons.injEq .. |>.mp h2
            rw [h3]
            exact hl

/-- C6 (corrected) counterexample: entries accepted by the code but
rejected by the claim's template — uppercase `PHOTO` (the whole pattern
carries `re.IGNORECASE`, not just the extension), a size field `1..2`
that is not a decimal with optional fraction, and a name with a trailing
newline accepted by Python's `$`. -/
theorem claim_C6_counterexample :
    (PATTERN_match "2022-01-14-14-33-00_PHOTO_12.683_MB.jpg".toList).isSome = true
    ∧ claimTemplate "2022-01-14-14-33-00_PHOTO_12.683_MB.jpg".toList = false
    ∧ (PATTERN_match "2022-01-14-14-33-00_photo_1..2_MB.jpg".toList).isSome = true
    ∧ claimTemplate "2022-01-14-14-33-00_photo_1..2_MB.jpg".toList = false
    ∧ (PATTERN_match "2022-01-14-14-33-00_photo_1.2_MB.jpg\n".toList).isSome = true
    ∧ claimTemplate "2022-01-14-14-33-00_photo_1.2_MB.jpg\n".toList = false := by
  decide

/-- C6 (amended).  A directory entry is selected iff it conforms to the
template `YYYY-MM-DD-HH-MM-SS_photo_<size>_MB.jpg` in which every
alphabetic literal (`photo`, `MB` and the extension) is matched
case-insensitively, the size field is any nonempty run of digits and
dots, and one trailing newline is tolerated; every other entry is
excluded. -/
theorem claim_C6_amended (s : List Char) :
    (PATTERN_match s).isSome = true ↔ templateCI s := by
  constructor
  · intro hm
    cases hpm : PATTERN_match s with
    | none => rw [hpm] at hm; exact Bool.noConfusion hm
    | some c =>
        obtain ⟨p, sz, mb, tl, hs, h1, h2, h3, h4, h5, h6, h7, h8, h9, h10, h11, h12⟩ :=
          PATTERN_match_eq_some hpm
        exact ⟨c.y, c.mo, c.d, c.h, c.mi, c.se, p, sz, mb, c.ext, tl,
          hs, h1, h2, h3, h4, h5, h6, h7, h8, h9, h10, h11, h12⟩
  · rintro ⟨y, mo, d, hh, mi, se, p, sz, mb, ext, tl,
      hs, h1, h2, h3, h4, h5, h6, h7, h8, h9, h10, h11, h12⟩
    rw [hs, PATTERN_match_of_template h1 h2 h3 h4 h5 h6 h7 h8 h9 h10 h11 h12]
    rfl

/-- C7 (confirmed).  Base key purity: for any two filenames built from
the same date/time fields but different size fields and extension
casings, both match, both derive the same base key — a pure function of
year, month, day, hour, minute and second only — and each file's captured
extension (reused in its planned new name) is its own, case preserved. -/
theorem claim_C7_base_key_purity
    (y mo d hh mi se sz1 sz2 e1 e2 : List Char)
    (hy : digitBlock 4 y) (hmo : digitBlock 2 mo) (hd : digitBlock 2 d)
    (hhh : digitBlock 2 hh) (hmi : digitBlock 2 mi) (hse : digitBlock 2 se)
    (hsz1 : sz1 ≠ []) (hsz1a : sz1.all isSizeChar = true)
    (hsz2 : sz2 ≠ []) (hsz2a : sz2.all isSizeChar = true)
    (he1 : eqCI e1 ".jpg".toList) (he2 : eqCI e2 ".jpg".toList) :
    keyOf (String.mk (templArr y mo d hh mi se "_photo_".toList sz1 "_MB".toList e1 []))
      = some (String.mk (y ++ mo ++ d ++ ('_' :: (hh ++ mi ++ se ++ "_photo".toList))))
    ∧ keyOf (String.mk (templArr y mo d hh mi se "_photo_".toList sz2 "_MB".toList e2 []))
      = some (String.mk (y ++ mo ++ d ++ ('_' :: (hh ++ mi ++ se ++ "_photo".toList))))
    ∧ extOf (String.mk (templArr y mo d hh mi se "_photo_".toList sz1 "_MB".toList e1 []))
      = some (String.mk e1)
    ∧ extOf (String.mk (templArr y mo d hh mi se "_photo_".toList sz2 "_MB".toList e2 []))
      = some (String.mk e2) := by
  have hparse1 := PATTERN_match_of_template hy hmo hd hhh hmi hse rfl
    hsz1 hsz1a rfl he1 (Or.inl rfl)
  have hparse2 := PATTERN_match_of_template hy hmo hd hhh hmi hse rfl
    hsz2 hsz2a rfl he2 (Or.inl rfl)
  exact ⟨keyOf_of_parse hparse1, keyOf_of_parse hparse2,
    extOf_of_parse hparse1, extOf_of_parse hparse2⟩

/-- Witness for C7 on the spec's scenario pair (`12.683`/`.jpg` against
`9.1`/`.JPG`). -/
theorem claim_C7_witness :
    keyOf (String.mk (templArr "2022".toList "01".toList "14".toList "14".toList
        "33".toList "00".toList "_photo_".toList "12.683".toList "_MB".toList
        ".jpg".toList []))
      = some (String.mk ("2022".toList ++ "01".toList ++ "14".toList
          ++ ('_' :: ("14".toList ++ "33".toList ++ "00".toList ++ "_photo".toList))))
    ∧ keyOf (String.mk (templArr "2022".toList "01".toList "14".toList "14".toList
        "33".toList "00".toList "_photo_".toList "9.1".toList "_MB".toList
        ".JPG".toList []))
      = some (String.mk ("2022".toList ++ "01".toList ++ "14".toList
          ++ ('_' :: ("14".toList ++ "33".toList ++ "00".toList ++ "_photo".toList))))
    ∧ extOf (String.mk (templArr "2022".toList "01".toList "14".toList "14".toList
        "33".toList "00".toList "_photo_".toList "12.683".toList "_MB".toList
        ".jpg".toList []))
      = some (String.mk ".jpg".toList)
    ∧ extOf (String.mk (templArr "2022".toList "01".toList "14".toList "14".toList
        "33".toList "00".toList "_photo_".toList "9.1".toList "_MB".toList
        ".JPG".toList []))
      = some (String.mk ".JPG".toList) :=
  claim_C7_base_key_purity "2022".toList "01".toList "14".toList "14".toList
    "33".toList "00".toList "12.683".toList "9.1".toList ".jpg".toList ".JPG".toList
    ⟨rfl, rfl⟩ ⟨rfl, rfl⟩ ⟨rfl, rfl⟩ ⟨rfl, rfl⟩ ⟨rfl, rfl⟩ ⟨rfl, rfl⟩
    (by decide) rfl (by decide) rfl rfl rfl

/-- C4 (corrected) counterexample: a leftover file already carrying a
planned target name (`20220114_143300_photo_1.jpg`) makes the first apply
run skip one pair as a conflict; on the second run that file's group has
shrunk to a singleton, its planned name loses the suffix, and the second
run performs one further rename — not zero — although no file was added
or removed between the runs and every `os.rename` succeeds. -/
theorem claim_C4_counterexample :
    (rename_files_with_deduplication false (fun _ => true)
        ["2022-01-14-14-33-00_photo_1.0_MB.jpg",
         "2022-01-14-14-33-00_photo_2.0_MB.jpg",
         "20220114_143300_photo_1.jpg"]).2 = 1
    ∧ (rename_files_with_deduplication false (fun _ => true)
        (rename_files_with_deduplication false (fun _ => true)
          ["2022-01-14-14-33-00_photo_1.0_MB.jpg",
           "2022-01-14-14-33-00_photo_2.0_MB.jpg",
           "20220114_143300_photo_1.jpg"]).1).2 = 1 := by
  constructor
  · decide
  · decide

/-- C4 (amended).  If the first apply run is clean — no planned target
name already exists in the listing and no two plan pairs share a target —
then after it finishes no entry matches the pattern any more, so the
second apply run takes the no-matches early return: it performs zero
`os.rename` calls and leaves the listing unchanged. -/
theorem claim_C4_amended (fs : List String) (hnd : fs.Nodup)
    (hfresh : ∀ p ∈ rename_plan (matching_files fs), p.2 ∉ fs)
    (hdist : ((rename_plan (matching_files fs)).map Prod.snd).Nodup) :
    matching_files (rename_files_with_deduplication false (fun _ => true) fs).1 = []
    ∧ rename_files_with_deduplication false (fun _ => true)
        (rename_files_with_deduplication false (fun _ => true) fs).1
      = ((rename_files_with_deduplication false (fun _ => true) fs).1, 0) := by
  have hmain : matching_files
      (rename_files_with_deduplication false (fun _ => true) fs).1 = [] := by
    by_cases hms : matching_files fs = []
    · simp only [rename_files_with_deduplication]
      rw [if_pos hms]
      exact hms
    · simp only [rename_files_with_deduplication]
      rw [if_neg hms]
      rw [matching_files, List.filter_eq_nil_iff]
      intro a ha
      have hmem := execPlan_all_renames (fun _ => true) (fun _ => rfl) hnd
        (fun p hp => List.mem_of_mem_filter (plan_pair_facts hp).1)
        hfresh (fun p hp => (plan_pair_facts hp).2.2.2)
        (rename_plan_fst_nodup (hnd.filter _)) hdist a ha
      rcases hmem with ⟨hafs, hanf⟩ | hsnd
      · intro hmatch
        obtain ⟨c, hc⟩ := Option.isSome_iff_exists.mp hmatch
        have hams : a ∈ matching_files fs := List.mem_filter.mpr ⟨hafs, hmatch⟩
        exact hanf (mem_plan_fst_of_matching hc hams)
      · intro hmatch
        obtain ⟨q, hq, hq2⟩ := List.mem_map.mp hsnd
        have hqn := (plan_pair_facts hq).2.2.1
        rw [hq2] at hqn
        rw [hqn] at hmatch
        cases hmatch
  refine ⟨hmain, ?_⟩
  generalize hgen : (rename_files_with_deduplication false (fun _ => true) fs).1 = L at hmain ⊢
  simp only [rename_files_with_deduplication]
  rw [if_pos hmain]

/-- Witness for the amended C4 on a clean one-photo listing. -/
theorem claim_C4_witness :
    matching_files (rename_files_with_deduplication false (fun _ => true)
        ["2022-01-14-14-33-00_photo_12.683_MB.jpg", "notes.txt"]).1 = []
    ∧ rename_files_with_deduplication false (fun _ => true)
        (rename_files_with_deduplication false (fun _ => true)
          ["2022-01-14-14-33-00_photo_12.683_MB.jpg", "notes.txt"]).1
      = ((rename_files_with_deduplication false (fun _ => true)
          ["2022-01-14-14-33-00_photo_12.683_MB.jpg", "notes.txt"]).1, 0) :=
  claim_C4_amended ["2022-01-14-14-33-00_photo_12.683_MB.jpg", "notes.txt"]
    (by decide) (by decide) (by decide)

end Rename
